import Mathlib

/-!
Verification of the short-form assembly pipeline of the `tiktok_auto`
repository.  Text is modelled as `List Char`; Python's float arithmetic on
durations and scores is modelled over `ℚ` (the operations involved are
min, max, field arithmetic and comparisons); the SQLite `fonds` table is modelled as a
`List Fond`.  Each definition is a direct translation of the Python function
named in its doc comment.
-/

/-- Python `str.isspace`-style whitespace test used by `str.split()`. -/
def pyIsSpace (c : Char) : Bool :=
  c.isWhitespace

/-- Helper for `pySplit`: accumulates the current word (reversed) while
scanning the text, mirroring how Python's `str.split()` skips runs of
whitespace and drops empty words. -/
def pySplitAux : List Char → List Char → List (List Char)
  | [], acc => if acc.isEmpty then [] else [acc.reverse]
  | c :: cs, acc =>
    if pyIsSpace c then
      if acc.isEmpty then pySplitAux cs [] else acc.reverse :: pySplitAux cs []
    else
      pySplitAux cs (c :: acc)

/-- Python `text.split()` (no separator argument): split on runs of
whitespace, returning the list of non-empty words. -/
def pySplit (t : List Char) : List (List Char) :=
  pySplitAux t []

/-- Python `' '.join(words)`: concatenate with a single space between
elements. -/
def pyJoinSpace (ws : List (List Char)) : List Char :=
  List.intercalate [' '] ws

/-- Loop body of `ShortsGenerator._split_text_into_segments` (identical copy
in `ViralDetector._split_text_into_segments`): words are accumulated into
`current_segment` while `current_length` counts `len(word) + 1`; once the
estimated duration `(current_length / 150) * 60` reaches `max_duration` the
segment is flushed, and a non-empty trailing segment is flushed at the end. -/
def splitTextLoop (maxDuration : ℚ) : List (List Char) → List (List Char) → ℚ →
    List (List (List Char))
  | [], currentSegment, _ =>
    if currentSegment.isEmpty then [] else [currentSegment]
  | w :: ws, currentSegment, currentLength =>
    let currentSegment' := currentSegment ++ [w]
    let currentLength' := currentLength + (w.length + 1)
    if maxDuration ≤ currentLength' / 150 * 60 then
      currentSegment' :: splitTextLoop maxDuration ws [] 0
    else
      splitTextLoop maxDuration ws currentSegment' currentLength'

/-- `_split_text_into_segments(text, max_duration)`: split `text.split()`
into chunks by estimated duration and join each chunk with single spaces. -/
def splitTextIntoSegments (maxDuration : ℚ) (text : List Char) : List (List Char) :=
  (splitTextLoop maxDuration (pySplit text) [] 0).map pyJoinSpace

/-- Does `l` start with the sequence `needle`? (helper for substring search). -/
def startsWithSeq : List Char → List Char → Bool
  | _, [] => true
  | [], _ :: _ => false
  | c :: cs, d :: ds => c = d && startsWithSeq cs ds

/-- Python's `needle in hay` substring test on strings. -/
def containsSeq (needle : List Char) : List Char → Bool
  | [] => needle.isEmpty
  | c :: t => startsWithSeq (c :: t) needle || containsSeq needle t

/-- Python `str.lower()` on one character.  Python performs the full Unicode
case fold; it is modelled here on the characters that occur in French text
(the scorer's input and keyword alphabet): the ASCII letters `A`–`Z`, the
Latin-1 accented capitals `À`–`Þ` (whose lower-case forms are 32 code points
higher, with `×` excluded as a non-letter), and the two French capitals
outside that block, `Œ` and `Ÿ`. -/
def pyLowerChar (c : Char) : Char :=
  if 'A' ≤ c ∧ c ≤ 'Z' then Char.ofNat (c.toNat + 32)
  else if ('À' ≤ c ∧ c ≤ 'Þ') ∧ c ≠ '×' then Char.ofNat (c.toNat + 32)
  else if c = 'Œ' then 'œ'
  else if c = 'Ÿ' then 'ÿ'
  else c

/-- Python `text.lower()` (per-character case fold, see `pyLowerChar`). -/
def pyLower (t : List Char) : List Char :=
  t.map pyLowerChar

/-- The `viral_keywords` weight table of `ViralDetector._calculate_viral_score`.
The Python source writes it as a dict literal in which several keys are
repeated with identical weights (duplicate keys overwrite each other in a
Python dict literal), so the table below lists each distinct key once, in
first-occurrence order, with its (unchanged) weight. -/
def viralKeywords : List (List Char × ℚ) :=
  [("secret".toList, 0.9), ("révélation".toList, 0.95), ("choc".toList, 0.8),
   ("incroyable".toList, 0.7), ("jamais".toList, 0.6), ("toujours".toList, 0.5),
   ("erreur".toList, 0.7), ("succès".toList, 0.6), ("échec".toList, 0.7),
   ("transformation".toList, 0.8), ("méthode".toList, 0.6), ("technique".toList, 0.5),
   ("astuce".toList, 0.7), ("conseil".toList, 0.6), ("truc".toList, 0.5),
   ("hack".toList, 0.8), ("lifehack".toList, 0.9), ("productivité".toList, 0.6),
   ("argent".toList, 0.9), ("richesse".toList, 0.9), ("bonheur".toList, 0.7),
   ("amour".toList, 0.6), ("relation".toList, 0.5), ("découverte".toList, 0.8),
   ("révolutionnaire".toList, 0.9), ("innovant".toList, 0.7), ("exclusif".toList, 0.8),
   ("unique".toList, 0.7), ("spécial".toList, 0.6), ("rare".toList, 0.7),
   ("puissant".toList, 0.8), ("efficace".toList, 0.7), ("rapide".toList, 0.6),
   ("facile".toList, 0.6), ("gratuit".toList, 0.8), ("gratuitement".toList, 0.8),
   ("économiser".toList, 0.7), ("gagner".toList, 0.8), ("perdre".toList, 0.7),
   ("changer".toList, 0.6), ("améliorer".toList, 0.7), ("développer".toList, 0.6),
   ("créer".toList, 0.6), ("construire".toList, 0.5), ("réaliser".toList, 0.6),
   ("accomplir".toList, 0.7), ("atteindre".toList, 0.6), ("obtenir".toList, 0.6),
   ("acquérir".toList, 0.6), ("maîtriser".toList, 0.7), ("dominer".toList, 0.8),
   ("conquérir".toList, 0.8), ("surmonter".toList, 0.7), ("résoudre".toList, 0.7),
   ("trouver".toList, 0.5), ("découvrir".toList, 0.7), ("apprendre".toList, 0.6),
   ("comprendre".toList, 0.5), ("savoir".toList, 0.5), ("connaître".toList, 0.5),
   ("expérimenter".toList, 0.6), ("tester".toList, 0.5), ("essayer".toList, 0.5),
   ("proposer".toList, 0.5), ("suggérer".toList, 0.5), ("recommander".toList, 0.6),
   ("conseiller".toList, 0.6), ("guider".toList, 0.5), ("aider".toList, 0.5),
   ("soutenir".toList, 0.5), ("encourager".toList, 0.6), ("motiver".toList, 0.7),
   ("inspirer".toList, 0.7), ("influencer".toList, 0.7), ("impacter".toList, 0.7),
   ("transformer".toList, 0.8), ("révolutionner".toList, 0.9),
   ("innover".toList, 0.8), ("inventer".toList, 0.8)]

/-- The `emotion_words` list of `_calculate_viral_score`. -/
def emotionWords : List (List Char) :=
  [("amour".toList), ("haine".toList), ("joie".toList), ("tristesse".toList),
   ("colère".toList), ("peur".toList), ("surprise".toList), ("dégoût".toList)]

/-- The French determiners checked by `text.startswith(('Le', 'La', ...))`. -/
def determinerStarts : List (List Char) :=
  [("Le".toList), ("La".toList), ("Les".toList), ("Un".toList), ("Une".toList),
   ("Ce".toList), ("Cette".toList)]

/-- The interrogative words checked against `text_lower`. -/
def interrogativeWords : List (List Char) :=
  [("pourquoi".toList), ("comment".toList), ("quand".toList), ("où".toList),
   ("qui".toList), ("quoi".toList)]

/-- The ordinal and list markers checked against `text_lower`. -/
def listMarkerWords : List (List Char) :=
  [("première".toList), ("deuxième".toList), ("troisième".toList),
   ("1.".toList), ("2.".toList), ("3.".toList)]

/-- `ViralDetector._calculate_viral_score(text)`: weighted sum of a keyword
component (raw sum of weights of keywords occurring as substrings of the
lower-cased text), a length component by word-count band and a structure
component, clamped above at `1.0` by the final `min`. -/
def calculateViralScore (text : List Char) : ℚ :=
  let textLower := pyLower text
  let totalScore : ℚ :=
    ((viralKeywords.filter (fun kw => containsSeq kw.1 textLower)).map Prod.snd).sum
  let wordCount := (pySplit text).length
  let lengthScore : ℚ :=
    if 50 ≤ wordCount ∧ wordCount ≤ 150 then 1.0
    else if 30 ≤ wordCount ∧ wordCount ≤ 200 then 0.8
    else if 20 ≤ wordCount ∧ wordCount ≤ 300 then 0.6
    else 0.3
  let structureScore : ℚ :=
    (if containsSeq ['?'] text then 0.3 else 0) +
    (if containsSeq ['!'] text then 0.2 else 0) +
    (if determinerStarts.any (fun d => startsWithSeq text d) then 0.1 else 0) +
    (if interrogativeWords.any (fun w => containsSeq w textLower) then 0.2 else 0) +
    min ((emotionWords.filter (fun w => containsSeq w textLower)).length * (0.1 : ℚ)) 0.3 +
    (if text.any (fun c => c.isDigit) then 0.1 else 0) +
    (if listMarkerWords.any (fun w => containsSeq w textLower) then 0.2 else 0)
  let keywordWeight : ℚ := 0.4
  let lengthWeight : ℚ := 0.25
  let structureWeight : ℚ := 0.35
  let finalScore :=
    totalScore * keywordWeight + lengthScore * lengthWeight + structureScore * structureWeight
  min finalScore 1.0

/-- A scored candidate segment as built by `ViralDetector._ai_analysis`
(`title` and `justification` are presentation strings, irrelevant to the
claims, and are omitted). -/
structure ViralSegment where
  startTime : ℚ
  endTime : ℚ
  text : List Char
  viralScore : ℚ
deriving Repr, DecidableEq

/-- The candidate-building loop of `_ai_analysis`: enumerate the segments,
score each one, and keep those with score strictly above `0.6`, with
`start_time = i * 30` and `end_time = min((i + 1) * 30, 90)`. -/
def viralCandidates : List (List Char) → ℕ → List ViralSegment
  | [], _ => []
  | seg :: rest, i =>
    let score := calculateViralScore seg
    if 0.6 < score then
      ⟨(i : ℚ) * 30, min (((i : ℚ) + 1) * 30) 90, seg, score⟩ :: viralCandidates rest (i + 1)
    else
      viralCandidates rest (i + 1)

/-- The comparison used to model
`viral_segments.sort(key=lambda x: x['viral_score'], reverse=True)`:
descending by score (Python's sort is stable; `List.insertionSort` with this
relation is stable in the same sense). -/
def scoreDesc (a b : ViralSegment) : Prop :=
  b.viralScore ≤ a.viralScore

instance : DecidableRel scoreDesc := fun a b =>
  inferInstanceAs (Decidable (b.viralScore ≤ a.viralScore))

/-- `ViralDetector._ai_analysis(text)`: split the text into segments, keep
candidates scoring above the threshold, sort them descending by score
(stably) and return the top 5. -/
def aiAnalysis (text : List Char) : List ViralSegment :=
  let segments := splitTextIntoSegments 90 text
  let viralSegments := viralCandidates segments 0
  (viralSegments.insertionSort scoreDesc).take 5

/-- `ViralDetector.analyze_viral_potential(video_id)`: the stored transcript
row is modelled as an `Option`; a missing transcript yields `[]` (the code
prints a message and returns the empty list). -/
def analyzeViralPotential (transcript : Option (List Char)) : List ViralSegment :=
  match transcript with
  | none => []
  | some text => aiAnalysis text

/-- `ViralDetector.get_top_viral_moments(video_id, limit=3)`. -/
def getTopViralMoments (transcript : Option (List Char)) (limit : ℕ := 3) :
    List ViralSegment :=
  (analyzeViralPotential transcript).take limit

/-- `ViralDetector.batch_analyze_videos`: analyse each video in turn and
record a result only when the moment list is non-empty (`if moments:`);
videos with no moments are simply passed over and the loop continues. -/
def batchAnalyzeVideos (videos : List (String × Option (List Char))) :
    List (String × List ViralSegment) :=
  videos.filterMap (fun v =>
    let moments := analyzeViralPotential v.2
    if moments.isEmpty then none else some (v.1, moments))

/-- The `viral_keywords` list of `ShortsGenerator._is_viral_potential`
(a Python list, not a dict: the duplicated entry `'succès'` is kept, exactly
as in the source, because membership hits are counted per list entry). -/
def shortsViralKeywords : List (List Char) :=
  [("secret".toList), ("révélation".toList), ("choc".toList), ("incroyable".toList),
   ("jamais".toList), ("toujours".toList), ("erreur".toList), ("succès".toList),
   ("échec".toList), ("transformation".toList), ("méthode".toList), ("technique".toList),
   ("astuce".toList), ("conseil".toList), ("truc".toList), ("hack".toList),
   ("lifehack".toList), ("productivité".toList), ("argent".toList), ("richesse".toList),
   ("succès".toList), ("bonheur".toList), ("amour".toList), ("relation".toList)]

/-- `ShortsGenerator._is_viral_potential(text)`. -/
def isViralPotential (text : List Char) : Bool :=
  let textLower := pyLower text
  let viralScore : ℚ :=
    ((shortsViralKeywords.filter (fun kw => containsSeq kw textLower)).length : ℚ)
  let lengthScore : ℚ := min (((pySplit text).length : ℚ) / 50) 1.0
  let keywordScore : ℚ := min (viralScore / 3) 1.0
  let totalScore := (lengthScore + keywordScore) / 2
  decide (0.3 < totalScore)

/-- A viral moment as built by `ShortsGenerator.find_viral_moments`. -/
structure ViralMoment where
  startTime : ℚ
  endTime : ℚ
  text : List Char
deriving Repr, DecidableEq

/-- The per-segment loop of `find_viral_moments`: segments judged viral
produce a moment whose estimated duration is the word count over 2.5 words
per second, clamped into `[70, 90]`; `current_time` always advances by the
unclamped estimated segment duration. -/
def findViralMomentsLoop : List (List Char) → ℚ → List ViralMoment
  | [], _ => []
  | seg :: rest, currentTime =>
    let segmentDuration : ℚ := ((pySplit seg).length : ℚ) / (5 / 2)
    if isViralPotential seg then
      let estimatedDuration := min (max segmentDuration 70) 90
      ⟨currentTime, currentTime + estimatedDuration, seg⟩ ::
        findViralMomentsLoop rest (currentTime + segmentDuration)
    else
      findViralMomentsLoop rest (currentTime + segmentDuration)

/-- `ShortsGenerator.find_viral_moments(video_id)`: a missing transcript row
(modelled as `none`) yields the empty list; otherwise the transcript is split
into segments of at most 90 estimated seconds and scanned for viral
potential. -/
def findViralMoments (transcript : Option (List Char)) : List ViralMoment :=
  match transcript with
  | none => []
  | some text => findViralMomentsLoop (splitTextIntoSegments 90 text) 0

/-- A platform template from `ShortsGenerator.platform_templates`: only the
two duration fields are relevant to the timing claims.  In `create_short`,
`min_duration` is read from the template's `min_duration` key and
`max_duration` from its `duration_limit` key. -/
structure PlatformTemplate where
  durationLimit : ℚ
  minDuration : ℚ
deriving Repr, DecidableEq

/-- `platform_templates['tiktok']`: `duration_limit = 60`, `min_duration = 70`. -/
def tiktokTemplate : PlatformTemplate :=
  { durationLimit := 60, minDuration := 70 }

/-- `platform_templates['youtube_shorts']`: `duration_limit = 60`,
`min_duration = 70`. -/
def youtubeShortsTemplate : PlatformTemplate :=
  { durationLimit := 60, minDuration := 70 }

/-- `platform_templates['instagram_reels']`: `duration_limit = 90`,
`min_duration = 70`. -/
def instagramReelsTemplate : PlatformTemplate :=
  { durationLimit := 90, minDuration := 70 }

/-- The duration-normalization of `ShortsGenerator.create_short`
(lines 425-452 of `shorts_generator.py`) as a pure function of the probed
`video_duration`, the platform's `min_duration` and `max_duration`
(`duration_limit`), and the chosen moment's `start_time` and duration
`end_time - start_time`, decomposed into the four successive guarded
mutations of the source.  Step 1 (lines 426-434): pick the initial
`short_duration` — the platform minimum for short sources, otherwise the
moment duration clamped by `duration_limit` and raised to `min_duration`. -/
def normalizeChooseDuration (videoDuration minDuration maxDuration
    momentDuration : ℚ) : ℚ :=
  if videoDuration < minDuration then
    minDuration
  else
    let d := min maxDuration momentDuration
    if d < minDuration then minDuration else d

/-- Step 2 of the normalization (lines 436-439): if `start_time` is at or
past the end of the source, reset it to `0` and cap the duration by the
source duration. -/
def normalizeResetStart (videoDuration maxDuration startTime shortDuration : ℚ) :
    ℚ × ℚ :=
  if videoDuration ≤ startTime then ((0 : ℚ), min maxDuration videoDuration)
  else (startTime, shortDuration)

/-- Step 3 of the normalization (lines 441-444): if the window overflows the
source, shift the start down and re-cap the duration at what remains after
the shifted start. -/
def normalizeClampOverflow (videoDuration : ℚ) (p : ℚ × ℚ) : ℚ × ℚ :=
  if videoDuration < p.1 + p.2 then
    let s := max 0 (videoDuration - p.2)
    (s, min p.2 (videoDuration - s))
  else p

/-- Step 4 of the normalization (lines 446-452): re-impose the platform
minimum, shifting the start again if the lengthened window overflows. -/
def normalizeEnsureMin (videoDuration minDuration : ℚ) (p : ℚ × ℚ) : ℚ × ℚ :=
  if p.2 < minDuration then
    (if videoDuration < p.1 + minDuration
      then max 0 (videoDuration - minDuration) else p.1, minDuration)
  else p

/-- The full duration-normalization of `create_short`: the four guarded
steps applied in source order. -/
def normalizeShortTiming (videoDuration minDuration maxDuration startTime
    momentDuration : ℚ) : ℚ × ℚ :=
  normalizeEnsureMin videoDuration minDuration
    (normalizeClampOverflow videoDuration
      (normalizeResetStart videoDuration maxDuration startTime
        (normalizeChooseDuration videoDuration minDuration maxDuration
          momentDuration)))

/-- The source duration seen by the trimming stage of `create_short`
(lines 462-469): when the probed duration is below the required short
duration the source is extended first and `video_duration` is set to
`short_duration`; otherwise the probed duration is kept. -/
def postExtensionDuration (videoDuration shortDuration : ℚ) : ℚ :=
  if videoDuration < shortDuration then shortDuration else videoDuration

/-- The repetition count computed by `ShortsGenerator._extend_short_video`:
`repeat_count = int(target_duration / current_duration) + 1`.  Python's
`int()` truncates toward zero, which on the non-negative quotients used here
coincides with the floor. -/
def extendRepeatCount (currentDuration targetDuration : ℚ) : ℕ :=
  (⌊targetDuration / currentDuration⌋).toNat + 1

/-- The duration of the concatenated clip list built by
`_extend_short_video` before the `-t target_duration` cut: the source is
repeated `repeat_count` times. -/
def extendedConcatDuration (currentDuration targetDuration : ℚ) : ℚ :=
  (extendRepeatCount currentDuration targetDuration : ℚ) * currentDuration

/-- Python `str.strip()`: remove leading and trailing whitespace. -/
def pyStrip (s : List Char) : List Char :=
  ((s.dropWhile pyIsSpace).reverse.dropWhile pyIsSpace).reverse

/-- Helper for `text.split('. ')`: split on every (non-overlapping,
left-to-right) occurrence of the two-character separator, keeping empty
pieces, as Python's `str.split` with an explicit separator does. -/
def splitSentencesAux : List Char → List Char → List (List Char)
  | [], acc => [acc.reverse]
  | '.' :: ' ' :: rest, acc => acc.reverse :: splitSentencesAux rest []
  | c :: rest, acc => splitSentencesAux rest (c :: acc)

/-- Python `text.split('. ')` as used by `generate_cta_subtitles`. -/
def splitSentences (t : List Char) : List (List Char) :=
  splitSentencesAux t []

/-- The `cta_texts` table of `ShortsGenerator.generate_cta_subtitles`,
keyed by subtitle style; every entry is a list of four prompts.  Lookup is
`cta_texts.get(style, cta_texts['tiktok'])`. -/
def ctaTexts (style : String) : List String :=
  if style = "youtube_shorts" then
    ["🔔 Abonne-toi et active la cloche !",
     "👍 Like et abonne-toi pour plus de contenu !",
     "💎 Rejoins la communauté !",
     "🎯 Abonne-toi pour ne rien manquer !"]
  else if style = "instagram_reels" then
    ["✨ Suis-moi pour plus de contenu !",
     "🔥 Abonne-toi et active les notifications !",
     "💫 Double tap et abonne-toi !",
     "🌟 Suis-moi pour du contenu exclusif !"]
  else
    ["🔥 Abonne-toi pour plus de contenu comme ça !",
     "💯 Suis-moi pour du contenu exclusif !",
     "🚀 Abonne-toi et active la cloche !",
     "⭐ Like et abonne-toi pour plus !"]

/-- A subtitle cue window as written to the SRT file (`index` and the cue
text are irrelevant to the timing claims). -/
structure CaptionCue where
  startTime : ℚ
  stopTime : ℚ
deriving Repr, DecidableEq

/-- The content-cue loop of `generate_cta_subtitles`: each sentence whose
`strip()` is non-empty gets a cue of `time_per_sentence` seconds starting at
`current_time`, and only then does `current_time` advance. -/
def contentCuesLoop (timePerSentence : ℚ) : List (List Char) → ℚ → List CaptionCue
  | [], _ => []
  | s :: rest, currentTime =>
    if (pyStrip s).isEmpty then
      contentCuesLoop timePerSentence rest currentTime
    else
      ⟨currentTime, currentTime + timePerSentence⟩ ::
        contentCuesLoop timePerSentence rest (currentTime + timePerSentence)

/-- The CTA-cue loop of `generate_cta_subtitles`: one cue of `cta_duration`
seconds per prompt, back to back from `cta_start_time`. -/
def ctaCuesLoop (ctaDuration : ℚ) : List String → ℚ → List CaptionCue
  | [], _ => []
  | _ :: rest, ctaStartTime =>
    ⟨ctaStartTime, ctaStartTime + ctaDuration⟩ ::
      ctaCuesLoop ctaDuration rest (ctaStartTime + ctaDuration)

/-- The cue sequence written by `ShortsGenerator.generate_cta_subtitles`
(lines 292-339 of `shorts_generator.py`) for a narration `text` and a
resolved `audio_duration` (the probed TTS duration, or the word-count
estimate when probing returned `0.0`).  Half the audio duration, capped at
35 s, is reserved for the four CTA prompts; the CTA block is then shifted so
that it ends within the hard-coded 70 s `max_video_duration` and starts no
later than 35 s. -/
def generateCtaSubtitles (style : String) (text : List Char) (audioDuration : ℚ) :
    List CaptionCue :=
  let sentences := splitSentences text
  let ctaList := ctaTexts style
  let totalSentences := (sentences.filter (fun s => !(pyStrip s).isEmpty)).length
  if 0 < totalSentences then
    let ctaTime := min (audioDuration * 0.5) 35.0
    let contentTime := audioDuration - ctaTime
    let timePerSentence := contentTime / (totalSentences : ℚ)
    let contentCues := contentCuesLoop timePerSentence sentences 0.0
    let ctaDuration0 := ctaTime / (ctaList.length : ℚ)
    let ctaStart0 := contentTime
    let maxVideoDuration : ℚ := 70.0
    let p1 :=
      if maxVideoDuration < ctaStart0 + ctaTime then
        let s := maxVideoDuration - ctaTime
        if s < 0 then ((0 : ℚ), maxVideoDuration / (ctaList.length : ℚ))
        else (s, ctaDuration0)
      else (ctaStart0, ctaDuration0)
    let p2 :=
      if 35 < p1.1 then ((35 : ℚ), (maxVideoDuration - 35) / (ctaList.length : ℚ))
      else p1
    contentCues ++ ctaCuesLoop p2.2 ctaList p2.1
  else
    []

/-- A row of the `fonds` table of `database/fond_usage.db` (the fields not
read by the selection logic — `source`, `url`, `duration`, `file_size` — are
omitted).  `downloadDate` and timestamps are modelled as naturals ordered by
time. -/
structure Fond where
  id : ℕ
  filename : String
  theme : String
  downloadDate : ℕ
  usageCount : ℕ
  lastUsed : Option ℕ
deriving Repr, DecidableEq

/-- The `ORDER BY usage_count ASC, download_date DESC` comparison of
`FondDownloader.get_available_fonds`. -/
def fondOrder (a b : Fond) : Prop :=
  a.usageCount < b.usageCount ∨
    (a.usageCount = b.usageCount ∧ b.downloadDate ≤ a.downloadDate)

instance : DecidableRel fondOrder := fun a b =>
  inferInstanceAs (Decidable (a.usageCount < b.usageCount ∨
    (a.usageCount = b.usageCount ∧ b.downloadDate ≤ a.downloadDate)))

instance : IsTotal Fond fondOrder :=
  ⟨fun a b => by
    rcases Nat.lt_trichotomy a.usageCount b.usageCount with h | h | h
    · exact Or.inl (Or.inl h)
    · rcases Nat.le_total b.downloadDate a.downloadDate with hd | hd
      · exact Or.inl (Or.inr ⟨h, hd⟩)
      · exact Or.inr (Or.inr ⟨h.symm, hd⟩)
    · exact Or.inr (Or.inl h)⟩

instance : IsTrans Fond fondOrder :=
  ⟨fun a b c hab hbc => by
    rcases hab with h1 | ⟨h1, h1d⟩ <;> rcases hbc with h2 | ⟨h2, h2d⟩
    · exact Or.inl (h1.trans h2)
    · exact Or.inl (h2 ▸ h1)
    · exact Or.inl (h1 ▸ h2)
    · exact Or.inr ⟨h1.trans h2, h2d.trans h1d⟩⟩

/-- `FondDownloader.get_available_fonds(theme)` restricted to the case the
claims use (a non-null, non-empty `theme` argument; a falsy argument selects
the whole table): rows with the requested theme, sorted by the SQL
`ORDER BY usage_count ASC, download_date DESC` (modelled as a stable sort by
that key over the table in row order). -/
def getAvailableFonds (theme : String) (fonds : List Fond) : List Fond :=
  (fonds.filter (fun f => f.theme = theme)).insertionSort fondOrder

/-- Python's `min(fonds, key=lambda x: x['usage_count'])`: fold keeping the
current minimum, replacing it only on a strictly smaller key, so the first
row with the minimal key wins. -/
def minByUsage : Fond → List Fond → Fond
  | best, [] => best
  | best, f :: rest =>
    if f.usageCount < best.usageCount then minByUsage f rest
    else minByUsage best rest

/-- `FondDownloader.select_fond_for_video(theme)`: pick the least-used fond
of the theme (first minimum of the sorted pool), increment its
`usage_count` by one and set `last_used` to the current timestamp; an empty
pool yields `None` and leaves the table unchanged.  Returns the selected row
together with the updated table. -/
def selectFondForVideo (now : ℕ) (theme : String) (fonds : List Fond) :
    Option (Fond × List Fond) :=
  match getAvailableFonds theme fonds with
  | [] => none
  | f :: rest =>
    let selected := minByUsage f rest
    let fonds' := fonds.map (fun c =>
      if c.id = selected.id then
        { c with usageCount := c.usageCount + 1, lastUsed := some now }
      else c)
    some (selected, fonds')

/-- The table after one `select_fond_for_video` call (unchanged when the
pool was empty). -/
def selectFondStep (now : ℕ) (theme : String) (fonds : List Fond) : List Fond :=
  match selectFondForVideo now theme fonds with
  | none => fonds
  | some (_, fonds') => fonds'

/-- A run of successive selections (`requests` pairs a timestamp with the
requested theme). -/
def runSelections (fonds : List Fond) : List (ℕ × String) → List Fond
  | [] => fonds
  | r :: rest => runSelections (selectFondStep r.1 r.2 fonds) rest

/-- `VideoBuilder._find_video_file(video_id)` with the stored theme of the
video passed in as `theme` (`none` models a video row without a theme) and
the on-demand acquisition `download_fonds_for_theme` modelled by the rows
`acquire theme` it appends to the table.  Fallback chain: select for the
video's theme; on failure acquire for that theme and retry; on failure retry
with the default theme `motivation`; on failure return `None`. -/
def findVideoFile (now : ℕ) (acquire : String → List Fond) (theme : Option String)
    (fonds : List Fond) : Option Fond × List Fond :=
  match theme with
  | some t =>
    match selectFondForVideo now t fonds with
    | some (f, fonds') => (some f, fonds')
    | none =>
      let fonds1 := fonds ++ acquire t
      match selectFondForVideo now t fonds1 with
      | some (f, fonds') => (some f, fonds')
      | none =>
        match selectFondForVideo now "motivation" fonds1 with
        | some (f, fonds') => (some f, fonds')
        | none => (none, fonds1)
  | none =>
    match selectFondForVideo now "motivation" fonds with
    | some (f, fonds') => (some f, fonds')
    | none => (none, fonds)

/-- The per-video filter of `VideoBuilder.get_videos_with_tts`: a video is
kept for building only when `_find_video_file` produced a background clip;
otherwise it is reported and skipped, and the loop moves on. -/
def getVideosWithTts (now : ℕ) (acquire : String → List Fond) :
    List (String × Option String) → List Fond → List (String × Fond) × List Fond
  | [], fonds => ([], fonds)
  | v :: rest, fonds =>
    match findVideoFile now acquire v.2 fonds with
    | (some f, fonds') =>
      let r := getVideosWithTts now acquire rest fonds'
      ((v.1, f) :: r.1, r.2)
    | (none, fonds') => getVideosWithTts now acquire rest fonds'

theorem viralKeywords_weights_nonneg (p : List Char × ℚ) (hp : p ∈ viralKeywords) :
    0 ≤ p.2 := by
  fin_cases hp <;> norm_num

theorem ite_nonneg_q (b : Prop) [Decidable b] (x : ℚ) (hx : 0 ≤ x) :
    0 ≤ (if b then x else 0) := by
  split_ifs
  · exact hx
  · exact le_refl 0

/-- C2: for every input text, the viral score computed by
`_calculate_viral_score` lies in the closed interval `[0, 1]`: the weighted
sum `0.4 * keyword + 0.25 * length + 0.35 * structure` is clamped above at
`1.0` by the final `min` and each component is non-negative, so the score is
never negative. -/
theorem viral_score_in_unit_interval (text : List Char) :
    0 ≤ calculateViralScore text ∧ calculateViralScore text ≤ 1 := by
  simp only [calculateViralScore]
  refine ⟨le_min ?_ (by norm_num), (min_le_right _ _).trans (by norm_num)⟩
  have h1 : (0 : ℚ) ≤ ((viralKeywords.filter
      (fun kw => containsSeq kw.1 (pyLower text))).map Prod.snd).sum := by
    apply List.sum_nonneg
    intro q hq
    simp only [List.mem_map, List.mem_filter] at hq
    obtain ⟨p, ⟨hp, _⟩, rfl⟩ := hq
    exact viralKeywords_weights_nonneg p hp
  have h2 : (0 : ℚ) ≤ (if 50 ≤ (pySplit text).length ∧ (pySplit text).length ≤ 150
      then (1.0 : ℚ)
      else if 30 ≤ (pySplit text).length ∧ (pySplit text).length ≤ 200 then 0.8
      else if 20 ≤ (pySplit text).length ∧ (pySplit text).length ≤ 300 then 0.6
      else 0.3) := by
    split_ifs <;> norm_num
  have h3 : (0 : ℚ) ≤ min
      (((emotionWords.filter (fun w => containsSeq w (pyLower text))).length : ℚ) * 0.1)
      0.3 := by
    refine le_min (mul_nonneg (Nat.cast_nonneg _) (by norm_num)) (by norm_num)
  refine add_nonneg (add_nonneg ?_ ?_) ?_
  · exact mul_nonneg h1 (by norm_num)
  · exact mul_nonneg h2 (by norm_num)
  · refine mul_nonneg ?_ (by norm_num)
    refine add_nonneg (add_nonneg (add_nonneg (add_nonneg (add_nonneg (add_nonneg
      ?_ ?_) ?_) ?_) h3) ?_) ?_ <;>
      exact ite_nonneg_q _ _ (by norm_num)

theorem normalizeChooseDuration_le_max (vd minD maxD md : ℚ) (h : minD ≤ maxD) :
    normalizeChooseDuration vd minD maxD md ≤ maxD := by
  simp only [normalizeChooseDuration]
  split_ifs
  · exact h
  · exact h
  · exact min_le_left _ _

theorem normalizeChooseDuration_eq_min_or_le_max (vd minD maxD md : ℚ) :
    normalizeChooseDuration vd minD maxD md = minD ∨
      normalizeChooseDuration vd minD maxD md ≤ maxD := by
  simp only [normalizeChooseDuration]
  split_ifs
  · exact Or.inl rfl
  · exact Or.inl rfl
  · exact Or.inr (min_le_left _ _)

theorem normalizeResetStart_fst_nonneg (vd maxD s0 d : ℚ) (hs0 : 0 ≤ s0) :
    0 ≤ (normalizeResetStart vd maxD s0 d).1 := by
  simp only [normalizeResetStart]
  split_ifs <;> simp [hs0]

theorem normalizeResetStart_snd_le_max (vd maxD s0 d : ℚ) (hd : d ≤ maxD) :
    (normalizeResetStart vd maxD s0 d).2 ≤ maxD := by
  simp only [normalizeResetStart]
  split_ifs
  · exact min_le_left _ _
  · exact hd

theorem normalizeClampOverflow_inv (vd : ℚ) (p : ℚ × ℚ) (hvd : 0 ≤ vd)
    (hp1 : 0 ≤ p.1) :
    0 ≤ (normalizeClampOverflow vd p).1 ∧
    (normalizeClampOverflow vd p).1 + (normalizeClampOverflow vd p).2 ≤ vd ∧
    (normalizeClampOverflow vd p).2 ≤ p.2 := by
  simp only [normalizeClampOverflow]
  split_ifs with h
  · refine ⟨le_max_left 0 _, ?_, min_le_left _ _⟩
    dsimp only
    rcases max_cases 0 (vd - p.2) with ⟨he, hle⟩ | ⟨he, hlt⟩ <;> rw [he]
    · have := min_le_right p.2 (vd - (0 : ℚ))
      linarith
    · have := min_le_right p.2 (vd - (vd - p.2))
      linarith
  · exact ⟨hp1, not_lt.mp h, le_refl _⟩

theorem normalizeEnsureMin_inv (vd minD : ℚ) (p : ℚ × ℚ) (hvd : 0 ≤ vd)
    (hp1 : 0 ≤ p.1) (hsum : p.1 + p.2 ≤ vd) :
    0 ≤ (normalizeEnsureMin vd minD p).1 ∧
    minD ≤ (normalizeEnsureMin vd minD p).2 ∧
    (normalizeEnsureMin vd minD p).1 + (normalizeEnsureMin vd minD p).2 ≤
      postExtensionDuration vd (normalizeEnsureMin vd minD p).2 ∧
    (normalizeEnsureMin vd minD p).2 ≤ max p.2 minD := by
  simp only [normalizeEnsureMin, postExtensionDuration]
  split_ifs with hE hF hpe hpe hpe <;> (try dsimp only at hpe ⊢)
  · -- duration bumped to the minimum and the start re-shifted
    refine ⟨le_max_left 0 _, le_refl _, ?_, le_max_right _ _⟩
    rcases max_cases 0 (vd - minD) with ⟨he, hle⟩ | ⟨he, hlt⟩ <;> rw [he] <;>
      linarith
  · refine ⟨le_max_left 0 _, le_refl _, ?_, le_max_right _ _⟩
    rcases max_cases 0 (vd - minD) with ⟨he, hle⟩ | ⟨he, hlt⟩ <;> rw [he] <;>
      linarith
  · -- duration bumped, start kept: the window already fit
    exact ⟨hp1, le_refl _, by linarith, le_max_right _ _⟩
  · exact ⟨hp1, le_refl _, by linarith, le_max_right _ _⟩
  · -- duration untouched
    exact ⟨hp1, not_lt.mp hE, by linarith, le_max_left _ _⟩
  · exact ⟨hp1, not_lt.mp hE, by linarith, le_max_left _ _⟩

theorem normalizeShortTiming_bounds_core (vd minD maxD s0 md : ℚ)
    (hs0 : 0 ≤ s0) (hvd : 0 ≤ vd) :
    0 ≤ (normalizeShortTiming vd minD maxD s0 md).1 ∧
    minD ≤ (normalizeShortTiming vd minD maxD s0 md).2 ∧
    (normalizeShortTiming vd minD maxD s0 md).1 +
        (normalizeShortTiming vd minD maxD s0 md).2 ≤
      postExtensionDuration vd (normalizeShortTiming vd minD maxD s0 md).2 ∧
    (minD ≤ maxD → (normalizeShortTiming vd minD maxD s0 md).2 ≤ maxD) := by
  have h1 := normalizeResetStart_fst_nonneg vd maxD s0
    (normalizeChooseDuration vd minD maxD md) hs0
  have h2 := normalizeClampOverflow_inv vd
    (normalizeResetStart vd maxD s0 (normalizeChooseDuration vd minD maxD md))
    hvd h1
  have h3 := normalizeEnsureMin_inv vd minD
    (normalizeClampOverflow vd
      (normalizeResetStart vd maxD s0 (normalizeChooseDuration vd minD maxD md)))
    hvd h2.1 h2.2.1
  refine ⟨h3.1, h3.2.1, h3.2.2.1, fun hminmax => ?_⟩
  have h4 := normalizeChooseDuration_le_max vd minD maxD md hminmax
  have h5 := normalizeResetStart_snd_le_max vd maxD s0
    (normalizeChooseDuration vd minD maxD md) h4
  have h6 := h2.2.2
  have h7 := h3.2.2.2
  calc (normalizeShortTiming vd minD maxD s0 md).2 ≤ _ := h7
    _ ≤ maxD := max_le (le_trans h6 h5) hminmax

/-- C1 (amended): with a non-negative probed video duration and moment start,
the normalized pair always satisfies `adjusted_start ≥ 0`,
`short_duration ≥ min_duration` and
`adjusted_start + short_duration ≤ post-extension duration`; the upper bound
`short_duration ≤ max_duration` additionally holds whenever the platform
profile satisfies `min_duration ≤ max_duration` (true of `instagram_reels`;
false of `tiktok` and `youtube_shorts`, whose templates set
`min_duration = 70 > 60 = duration_limit`, see
`create_short_duration_violates_tiktok_max`). -/
theorem normalizeShortTiming_bounds (vd minD maxD s0 md : ℚ)
    (hs0 : 0 ≤ s0) (hvd : 0 ≤ vd) :
    0 ≤ (normalizeShortTiming vd minD maxD s0 md).1 ∧
    minD ≤ (normalizeShortTiming vd minD maxD s0 md).2 ∧
    (normalizeShortTiming vd minD maxD s0 md).1 +
        (normalizeShortTiming vd minD maxD s0 md).2 ≤
      postExtensionDuration vd (normalizeShortTiming vd minD maxD s0 md).2 ∧
    (minD ≤ maxD → (normalizeShortTiming vd minD maxD s0 md).2 ≤ maxD) :=
  normalizeShortTiming_bounds_core vd minD maxD s0 md hs0 hvd

/-- C1 counterexample: for the `tiktok` platform profile (whose template has
`min_duration = 70` but `duration_limit = 60`), a 100 s source and a 20 s
viral moment starting at 0 normalize to a 70 s short, violating the claimed
`short_duration ≤ max_duration`. -/
theorem create_short_duration_violates_tiktok_max :
    ¬ ((normalizeShortTiming 100 tiktokTemplate.minDuration
          tiktokTemplate.durationLimit 0 20).2 ≤ tiktokTemplate.durationLimit) := by
  norm_num [normalizeShortTiming, normalizeChooseDuration, normalizeResetStart,
    normalizeClampOverflow, normalizeEnsureMin, tiktokTemplate, min_def, max_def]

theorem normalizeShortTiming_bounds_witness :
    0 ≤ (normalizeShortTiming 300 70 90 280 30).1 ∧
    70 ≤ (normalizeShortTiming 300 70 90 280 30).2 ∧
    (normalizeShortTiming 300 70 90 280 30).1 +
        (normalizeShortTiming 300 70 90 280 30).2 ≤
      postExtensionDuration 300 (normalizeShortTiming 300 70 90 280 30).2 ∧
    ((70 : ℚ) ≤ 90 → (normalizeShortTiming 300 70 90 280 30).2 ≤ 90) :=
  normalizeShortTiming_bounds 300 70 90 280 30 (by norm_num) (by norm_num)

theorem extendedConcatDuration_ge_target (c t : ℚ) (hc : 0 < c) :
    t ≤ extendedConcatDuration c t := by
  unfold extendedConcatDuration extendRepeatCount
  have h1 : t / c < (⌊t / c⌋ : ℚ) + 1 := Int.lt_floor_add_one _
  have h2 : ((⌊t / c⌋ : ℚ)) ≤ ((⌊t / c⌋.toNat : ℚ)) := by
    exact_mod_cast Int.self_le_toNat _
  have h4 : t / c * c ≤ (((⌊t / c⌋.toNat + 1 : ℕ) : ℚ)) * c := by
    apply mul_le_mul_of_nonneg_right _ hc.le
    push_cast
    linarith
  have h5 : t / c * c = t := div_mul_cancel₀ t hc.ne'
  linarith

/-- C4: for a 40 s source against the instagram-style bounds
`min_duration = 70`, `max_duration = 90` and any moment with a non-negative
start, normalization yields `(start, duration) = (0, 70)`; the source is
shorter than the required duration, so `create_short` runs the extension
step first (the duration the trim stage sees is the extended 70 s, not the
probed 40 s), and `_extend_short_video`'s integer repetition always reaches
at least the target duration; the final short duration lies in `[70, 90]`
and the start is `0`. -/
theorem create_short_extends_before_trimming (s0 md : ℚ) (hs0 : 0 ≤ s0) :
    normalizeShortTiming 40 70 90 s0 md = (0, 70) ∧
    (40 : ℚ) < (normalizeShortTiming 40 70 90 s0 md).2 ∧
    postExtensionDuration 40 (normalizeShortTiming 40 70 90 s0 md).2 =
      (normalizeShortTiming 40 70 90 s0 md).2 ∧
    (∀ c : ℚ, 0 < c →
      (normalizeShortTiming 40 70 90 s0 md).2 ≤
        extendedConcatDuration c (normalizeShortTiming 40 70 90 s0 md).2) ∧
    70 ≤ (normalizeShortTiming 40 70 90 s0 md).2 ∧
    (normalizeShortTiming 40 70 90 s0 md).2 ≤ 90 ∧
    (normalizeShortTiming 40 70 90 s0 md).1 = 0 := by
  have key : normalizeShortTiming 40 70 90 s0 md = (0, 70) := by
    simp only [normalizeShortTiming, normalizeChooseDuration, normalizeResetStart,
      normalizeClampOverflow, normalizeEnsureMin]
    rcases le_or_lt (40 : ℚ) s0 with hA | hA
    · rw [if_pos (by norm_num : (40 : ℚ) < 70), if_pos hA]
      norm_num [min_def, max_def]
    · rw [if_pos (by norm_num : (40 : ℚ) < 70), if_neg (not_le.mpr hA)]
      have hB : (40 : ℚ) < (s0, (70 : ℚ)).1 + (s0, (70 : ℚ)).2 := by
        dsimp only
        linarith
      rw [if_pos hB]
      norm_num [min_def, max_def]
  rw [key]
  refine ⟨rfl, by norm_num, by norm_num [postExtensionDuration], ?_, by norm_num,
    by norm_num, rfl⟩
  intro c hc
  exact extendedConcatDuration_ge_target c _ hc

theorem create_short_extends_before_trimming_witness :
    normalizeShortTiming 40 70 90 5 100 = (0, 70) ∧
    (40 : ℚ) < (normalizeShortTiming 40 70 90 5 100).2 ∧
    (normalizeShortTiming 40 70 90 5 100).2 ≤
      extendedConcatDuration 40 (normalizeShortTiming 40 70 90 5 100).2 :=
  ⟨(create_short_extends_before_trimming 5 100 (by norm_num)).1,
   (create_short_extends_before_trimming 5 100 (by norm_num)).2.1,
   (create_short_extends_before_trimming 5 100 (by norm_num)).2.2.2.1 40 (by norm_num)⟩

theorem normalizeResetStart_snd_cases (vd maxD s0 d : ℚ) :
    (normalizeResetStart vd maxD s0 d).2 = min maxD vd ∨
      (normalizeResetStart vd maxD s0 d).2 = d := by
  simp only [normalizeResetStart]
  split_ifs <;> simp

theorem normalizeEnsureMin_snd_cases (vd minD : ℚ) (p : ℚ × ℚ) :
    (normalizeEnsureMin vd minD p).2 = minD ∨
      (normalizeEnsureMin vd minD p).2 = p.2 := by
  simp only [normalizeEnsureMin]
  split_ifs <;> simp

theorem normalizeChooseDuration_fixed (vd minD maxD d : ℚ)
    (hvd : minD ≤ vd) (hd : minD ≤ d) (hcase : d ≤ maxD ∨ d = minD) :
    normalizeChooseDuration vd minD maxD d = d := by
  simp only [normalizeChooseDuration]
  rw [if_neg (not_lt.mpr hvd)]
  rcases hcase with hc | heq
  · rw [min_eq_right hc, if_neg (not_lt.mpr hd)]
  · subst heq
    rcases le_total d maxD with hx | hx
    · rw [min_eq_right hx, if_neg (lt_irrefl _)]
    · rw [min_eq_left hx]
      by_cases hy : maxD < d
      · rw [if_pos hy]
      · rw [if_neg hy]
        exact le_antisymm hx (not_lt.mp hy)

theorem normalizeShortTiming_of_short_source (vd minD maxD s0 md : ℚ)
    (hs0 : 0 ≤ s0) (hvd : 0 ≤ vd) (h : vd < minD) :
    normalizeShortTiming vd minD maxD s0 md = (0, minD) := by
  have e1 : normalizeChooseDuration vd minD maxD md = minD := by
    simp only [normalizeChooseDuration]
    rw [if_pos h]
  unfold normalizeShortTiming
  rw [e1]
  rcases le_or_lt vd s0 with hA | hA
  · have e2 : normalizeResetStart vd maxD s0 minD = (0, min maxD vd) := by
      simp only [normalizeResetStart]
      rw [if_pos hA]
    rw [e2]
    have e3 : normalizeClampOverflow vd (0, min maxD vd) = (0, min maxD vd) := by
      simp only [normalizeClampOverflow]
      rw [if_neg (show ¬ vd < ((0 : ℚ), min maxD vd).1 + ((0 : ℚ), min maxD vd).2 by
        dsimp only
        rw [zero_add]
        exact not_lt.mpr (min_le_right _ _))]
    rw [e3]
    have e4 : normalizeEnsureMin vd minD (0, min maxD vd) = (0, minD) := by
      simp only [normalizeEnsureMin]
      rw [if_pos (show ((0 : ℚ), min maxD vd).2 < minD from
        lt_of_le_of_lt (min_le_right _ _) h)]
      rw [if_pos (show vd < ((0 : ℚ), min maxD vd).1 + minD by dsimp only; linarith)]
      rw [max_eq_left (by linarith : vd - minD ≤ 0)]
    rw [e4]
  · have e2 : normalizeResetStart vd maxD s0 minD = (s0, minD) := by
      simp only [normalizeResetStart]
      rw [if_neg (not_le.mpr hA)]
    rw [e2]
    have e3 : normalizeClampOverflow vd (s0, minD) = (0, vd) := by
      simp only [normalizeClampOverflow]
      rw [if_pos (show vd < (s0, minD).1 + (s0, minD).2 by dsimp only; linarith)]
      rw [max_eq_left (by linarith : vd - minD ≤ 0)]
      rw [sub_zero, min_eq_right (le_of_lt h)]
    rw [e3]
    have e4 : normalizeEnsureMin vd minD (0, vd) = (0, minD) := by
      simp only [normalizeEnsureMin]
      rw [if_pos (show ((0 : ℚ), vd).2 < minD from h)]
      rw [if_pos (show vd < ((0 : ℚ), vd).1 + minD by dsimp only; linarith)]
      rw [max_eq_left (by linarith : vd - minD ≤ 0)]
    rw [e4]

theorem normalizeShortTiming_fixed (vd minD maxD s d : ℚ)
    (hvd : minD ≤ vd) (hs : 0 ≤ s) (hsum : s + d ≤ vd)
    (hd : minD ≤ d) (hmin : 0 < minD) (hcase : d ≤ maxD ∨ d = minD) :
    normalizeShortTiming vd minD maxD s d = (s, d) := by
  unfold normalizeShortTiming
  rw [normalizeChooseDuration_fixed vd minD maxD d hvd hd hcase]
  have e2 : normalizeResetStart vd maxD s d = (s, d) := by
    simp only [normalizeResetStart]
    rw [if_neg (not_le.mpr (by linarith : s < vd))]
  rw [e2]
  have e3 : normalizeClampOverflow vd (s, d) = (s, d) := by
    simp only [normalizeClampOverflow]
    rw [if_neg (show ¬ vd < (s, d).1 + (s, d).2 by dsimp only; linarith)]
  rw [e3]
  simp only [normalizeEnsureMin]
  rw [if_neg (show ¬ (s, d).2 < minD by dsimp only; exact not_lt.mpr hd)]

theorem normalizeShortTiming_invariants (vd minD maxD s0 md : ℚ)
    (hs0 : 0 ≤ s0) (hvd : 0 ≤ vd) (h : minD ≤ vd) :
    (normalizeShortTiming vd minD maxD s0 md).1 +
        (normalizeShortTiming vd minD maxD s0 md).2 ≤ vd ∧
    ((normalizeShortTiming vd minD maxD s0 md).2 ≤ maxD ∨
      (normalizeShortTiming vd minD maxD s0 md).2 = minD) := by
  obtain ⟨h1, h2, h3, -⟩ := normalizeShortTiming_bounds_core vd minD maxD s0 md hs0 hvd
  have hp1nn := normalizeResetStart_fst_nonneg vd maxD s0
    (normalizeChooseDuration vd minD maxD md) hs0
  have hco := normalizeClampOverflow_inv vd
    (normalizeResetStart vd maxD s0 (normalizeChooseDuration vd minD maxD md))
    hvd hp1nn
  have hrd : (normalizeShortTiming vd minD maxD s0 md).2 ≤ vd := by
    rcases normalizeEnsureMin_snd_cases vd minD
      (normalizeClampOverflow vd
        (normalizeResetStart vd maxD s0 (normalizeChooseDuration vd minD maxD md)))
      with he | he
    · rw [show (normalizeShortTiming vd minD maxD s0 md).2 = _ from he]
      exact h
    · rw [show (normalizeShortTiming vd minD maxD s0 md).2 = _ from he]
      linarith [hco.1, hco.2.1]
  constructor
  · have h3' := h3
    rwa [postExtensionDuration, if_neg (not_lt.mpr hrd)] at h3'
  · rcases normalizeEnsureMin_snd_cases vd minD
      (normalizeClampOverflow vd
        (normalizeResetStart vd maxD s0 (normalizeChooseDuration vd minD maxD md)))
      with he | he
    · exact Or.inr he
    · rcases normalizeResetStart_snd_cases vd maxD s0
        (normalizeChooseDuration vd minD maxD md) with hf | hf
      · left
        rw [show (normalizeShortTiming vd minD maxD s0 md).2 = _ from he]
        refine le_trans hco.2.2 ?_
        rw [hf]
        exact min_le_left _ _
      · rcases normalizeChooseDuration_eq_min_or_le_max vd minD maxD md with hg | hg
        · right
          refine le_antisymm ?_ h2
          rw [show (normalizeShortTiming vd minD maxD s0 md).2 = _ from he]
          refine le_trans hco.2.2 ?_
          rw [hf, hg]
        · left
          rw [show (normalizeShortTiming vd minD maxD s0 md).2 = _ from he]
          refine le_trans hco.2.2 ?_
          rw [hf]
          exact hg

/-- C8: re-running the duration normalization of `create_short` on its own
output — the moment `(start', start' + duration')` it produced, with the
same probed video duration and the same platform `min_duration` and
`max_duration` — returns the same start and duration unchanged.  The
hypotheses are those the call sites satisfy: the moment start is
non-negative, the probed duration is non-negative, and the platform minimum
(70 in every template) is positive. -/
theorem normalizeShortTiming_idempotent (vd minD maxD s0 md : ℚ)
    (hs0 : 0 ≤ s0) (hvd : 0 ≤ vd) (hmin : 0 < minD) :
    normalizeShortTiming vd minD maxD
        (normalizeShortTiming vd minD maxD s0 md).1
        (normalizeShortTiming vd minD maxD s0 md).2 =
      normalizeShortTiming vd minD maxD s0 md := by
  rcases lt_or_le vd minD with h | h
  · rw [normalizeShortTiming_of_short_source vd minD maxD s0 md hs0 hvd h]
    exact normalizeShortTiming_of_short_source vd minD maxD 0 minD le_rfl hvd h
  · obtain ⟨h1, h2, -, -⟩ := normalizeShortTiming_bounds_core vd minD maxD s0 md hs0 hvd
    obtain ⟨hsum, hcase⟩ := normalizeShortTiming_invariants vd minD maxD s0 md hs0 hvd h
    exact (normalizeShortTiming_fixed vd minD maxD
      (normalizeShortTiming vd minD maxD s0 md).1
      (normalizeShortTiming vd minD maxD s0 md).2
      h h1 hsum h2 hmin hcase).trans Prod.mk.eta

theorem normalizeShortTiming_idempotent_witness :
    normalizeShortTiming 300 70 90
        (normalizeShortTiming 300 70 90 280 30).1
        (normalizeShortTiming 300 70 90 280 30).2 =
      normalizeShortTiming 300 70 90 280 30 :=
  normalizeShortTiming_idempotent 300 70 90 280 30 (by norm_num) (by norm_num)
    (by norm_num)

theorem ctaCuesLoop_head_start (dur : ℚ) (l : List String) (cur : ℚ) :
    ∀ c ∈ (ctaCuesLoop dur l cur).head?, c.startTime = cur := by
  cases l <;> simp [ctaCuesLoop]

theorem ctaCuesLoop_chain (dur : ℚ) (l : List String) (cur : ℚ) :
    List.Chain' (fun a b => a.stopTime ≤ b.startTime) (ctaCuesLoop dur l cur) := by
  induction l generalizing cur with
  | nil => simp [ctaCuesLoop]
  | cons x rest ih =>
    rw [ctaCuesLoop, List.chain'_cons']
    refine ⟨?_, ih (cur + dur)⟩
    intro b hb
    rw [ctaCuesLoop_head_start dur rest (cur + dur) b hb]

theorem ctaCuesLoop_length (dur : ℚ) (l : List String) (cur : ℚ) :
    (ctaCuesLoop dur l cur).length = l.length := by
  induction l generalizing cur with
  | nil => simp [ctaCuesLoop]
  | cons x rest ih => simp [ctaCuesLoop, ih (cur + dur)]

theorem ctaCuesLoop_getLast_stop (dur : ℚ) (l : List String) (cur : ℚ) :
    ∀ c ∈ (ctaCuesLoop dur l cur).getLast?,
      c.stopTime = cur + (l.length : ℚ) * dur := by
  induction l generalizing cur with
  | nil => simp [ctaCuesLoop]
  | cons x rest ih =>
    intro c hc
    rw [ctaCuesLoop] at hc
    cases hrest : ctaCuesLoop dur rest (cur + dur) with
    | nil =>
      rw [hrest] at hc
      simp only [List.getLast?_singleton, Option.mem_def, Option.some.injEq] at hc
      have hlen : rest.length = 0 := by
        have h0 := congrArg List.length hrest
        rw [ctaCuesLoop_length] at h0
        simpa using h0
      subst hc
      simp only [hlen, List.length_cons]
      push_cast
      ring
    | cons y ys =>
      rw [hrest] at hc
      rw [List.getLast?_cons_cons] at hc
      rw [← hrest] at hc
      have hstop := ih (cur + dur) c hc
      rw [hstop, List.length_cons]
      push_cast
      ring

theorem contentCuesLoop_length (tps : ℚ) (l : List (List Char)) (cur : ℚ) :
    (contentCuesLoop tps l cur).length =
      (l.filter (fun s => !(pyStrip s).isEmpty)).length := by
  induction l generalizing cur with
  | nil => simp [contentCuesLoop]
  | cons s rest ih =>
    rw [contentCuesLoop]
    by_cases hs : (pyStrip s).isEmpty
    · rw [if_pos hs]
      simp [List.filter_cons, hs, ih cur]
    · rw [if_neg hs]
      simp only [List.filter_cons]
      simp [hs, ih (cur + tps)]

theorem contentCuesLoop_head_start (tps : ℚ) (l : List (List Char)) (cur : ℚ) :
    ∀ c ∈ (contentCuesLoop tps l cur).head?, c.startTime = cur := by
  induction l generalizing cur with
  | nil => simp [contentCuesLoop]
  | cons s rest ih =>
    rw [contentCuesLoop]
    by_cases hs : (pyStrip s).isEmpty
    · rw [if_pos hs]
      exact ih cur
    · rw [if_neg hs]
      simp

theorem contentCuesLoop_chain (tps : ℚ) (l : List (List Char)) (cur : ℚ) :
    List.Chain' (fun a b => a.stopTime ≤ b.startTime) (contentCuesLoop tps l cur) := by
  induction l generalizing cur with
  | nil => simp [contentCuesLoop]
  | cons s rest ih =>
    rw [contentCuesLoop]
    by_cases hs : (pyStrip s).isEmpty
    · rw [if_pos hs]
      exact ih cur
    · rw [if_neg hs]
      rw [List.chain'_cons']
      refine ⟨?_, ih (cur + tps)⟩
      intro b hb
      rw [contentCuesLoop_head_start tps rest (cur + tps) b hb]

theorem contentCuesLoop_getLast_stop (tps : ℚ) (l : List (List Char)) (cur : ℚ) :
    ∀ c ∈ (contentCuesLoop tps l cur).getLast?,
      c.stopTime = cur +
        ((l.filter (fun s => !(pyStrip s).isEmpty)).length : ℚ) * tps := by
  induction l generalizing cur with
  | nil => simp [contentCuesLoop]
  | cons s rest ih =>
    intro c hc
    rw [contentCuesLoop] at hc
    by_cases hs : (pyStrip s).isEmpty
    · rw [if_pos hs] at hc
      have := ih cur c hc
      rw [this]
      simp [List.filter_cons, hs]
    · rw [if_neg hs] at hc
      cases hrest : contentCuesLoop tps rest (cur + tps) with
      | nil =>
        rw [hrest] at hc
        simp only [List.getLast?_singleton, Option.mem_def, Option.some.injEq] at hc
        have hlen : (rest.filter (fun s => !(pyStrip s).isEmpty)).length = 0 := by
          have h0 := congrArg List.length hrest
          rw [contentCuesLoop_length] at h0
          simpa using h0
        subst hc
        have hone : (List.filter (fun s => !(pyStrip s).isEmpty) (s :: rest)).length = 1 := by
          simp [List.filter_cons, hs, hlen]
        rw [hone]
        push_cast
        ring
      | cons y ys =>
        rw [hrest] at hc
        rw [List.getLast?_cons_cons] at hc
        rw [← hrest] at hc
        have hstop := ih (cur + tps) c hc
        rw [hstop]
        have hsucc : (List.filter (fun s => !(pyStrip s).isEmpty) (s :: rest)).length =
            (List.filter (fun s => !(pyStrip s).isEmpty) rest).length + 1 := by
          simp [List.filter_cons, hs]
        rw [hsucc]
        push_cast
        ring

theorem ctaTexts_length (style : String) : (ctaTexts style).length = 4 := by
  unfold ctaTexts
  split_ifs <;> rfl

/-- C3 (amended): whenever the resolved audio duration is at most the
hard-coded 70 s `max_video_duration`, the cue sequence written by
`generate_cta_subtitles` (content cues followed by CTA cues) satisfies
`cues[i].end ≤ cues[i+1].start` for every pair of consecutive cues and the
last cue ends no later than the clip duration.  (For longer audio the
content cues overrun the shifted CTA block, see
`generate_cta_subtitles_overlap_counterexample`.) -/
theorem generateCtaSubtitles_cues_ordered (style : String) (text : List Char)
    (ad : ℚ) (had : ad ≤ 70) :
    List.Chain' (fun a b => a.stopTime ≤ b.startTime)
      (generateCtaSubtitles style text ad) ∧
    ∀ c ∈ (generateCtaSubtitles style text ad).getLast?, c.stopTime ≤ ad := by
  simp only [generateCtaSubtitles]
  split_ifs with hn h1 h2 h3 h4 h5
  · exfalso
    linarith
  · exfalso
    linarith
  · exfalso
    linarith
  · exfalso
    linarith
  · -- CTA start pushed down to 35 s: impossible for `ad ≤ 70`
    exfalso
    dsimp only at h5
    rcases min_cases (ad * 0.5) (35.0 : ℚ) with ⟨he, hle⟩ | ⟨he, hlt⟩ <;>
      rw [he] at h5 <;> linarith
  · -- main branch: content cues end exactly where the CTA block starts
    dsimp only
    set m : ℚ := ad * 0.5 ⊓ 35.0 with hm
    set N : ℕ := (List.filter (fun s => !(pyStrip s).isEmpty)
      (splitSentences text)).length with hN
    have hN0 : ((N : ℚ)) ≠ 0 := Nat.cast_ne_zero.mpr (Nat.pos_iff_ne_zero.mp hn)
    constructor
    · rw [List.chain'_append]
      refine ⟨contentCuesLoop_chain _ _ _, ctaCuesLoop_chain _ _ _, ?_⟩
      intro x hx y hy
      rw [contentCuesLoop_getLast_stop _ _ _ x hx, ctaCuesLoop_head_start _ _ _ y hy]
      have hmul : ((N : ℚ)) * ((ad - m) / (N : ℚ)) = ad - m := by
        rw [mul_comm]
        exact div_mul_cancel₀ _ hN0
      rw [← hN, hmul]
      norm_num
    · intro c hc
      have hcta_ne :
          ctaCuesLoop (m / ((ctaTexts style).length : ℚ)) (ctaTexts style) (ad - m) ≠
            [] := by
        intro h0
        have hl := congrArg List.length h0
        rw [ctaCuesLoop_length, ctaTexts_length] at hl
        simp at hl
      rw [List.getLast?_append_of_ne_nil _ hcta_ne] at hc
      have hstop := ctaCuesLoop_getLast_stop _ _ _ c hc
      rw [hstop, ctaTexts_length]
      push_cast
      have h4m : (4 : ℚ) * (m / 4) = m := by ring
      have hmle : m ≤ ad * 0.5 := min_le_left _ _
      linarith
  · -- no non-empty sentence: no cues at all
    simp

/-- C3 counterexample: for the one-sentence narration `"Bonjour"` with a
100 s audio duration, the single content cue runs `[0, 65]` while the CTA
block is shifted to start at 35 s (so that it ends inside the hard-coded
70 s `max_video_duration`), so consecutive cues overlap: the cue sequence is
not ordered. -/
theorem generate_cta_subtitles_overlap_counterexample :
    ¬ List.Chain' (fun a b => a.stopTime ≤ b.startTime)
        (generateCtaSubtitles "tiktok" ("Bonjour".toList) 100) := by
  intro h
  have hsent : splitSentences ("Bonjour".toList) = [("Bonjour".toList)] := by decide
  simp only [generateCtaSubtitles, hsent] at h
  have hfilt : List.filter (fun s => !(pyStrip s).isEmpty) [("Bonjour".toList)] =
      [("Bonjour".toList)] := by decide
  rw [hfilt] at h
  norm_num at h
  have hkeep : pyStrip ['B', 'o', 'n', 'j', 'o', 'u', 'r'] ≠ [] := by decide
  have hcl : contentCuesLoop 65 [['B', 'o', 'n', 'j', 'o', 'u', 'r']] 0 =
      [⟨0, 0 + 65⟩] := by
    simp [contentCuesLoop, List.isEmpty_iff, hkeep]
  rw [hcl] at h
  norm_num [ctaCuesLoop, ctaTexts, List.chain'_append, List.chain'_cons] at h

theorem generateCtaSubtitles_cues_ordered_witness :
    List.Chain' (fun a b => a.stopTime ≤ b.startTime)
      (generateCtaSubtitles "tiktok" ("Bonjour".toList) 60) ∧
    ∀ c ∈ (generateCtaSubtitles "tiktok" ("Bonjour".toList) 60).getLast?,
      c.stopTime ≤ 60 :=
  generateCtaSubtitles_cues_ordered "tiktok" ("Bonjour".toList) 60 (by norm_num)

theorem minByUsage_mem (b : Fond) (l : List Fond) : minByUsage b l ∈ b :: l := by
  induction l generalizing b with
  | nil => simp [minByUsage]
  | cons a t ih =>
    rw [minByUsage]
    split_ifs
    · rcases List.mem_cons.mp (ih a) with h1 | h1
      · exact List.mem_cons.mpr (Or.inr (List.mem_cons.mpr (Or.inl h1)))
      · exact List.mem_cons.mpr (Or.inr (List.mem_cons.mpr (Or.inr h1)))
    · rcases List.mem_cons.mp (ih b) with h1 | h1
      · exact List.mem_cons.mpr (Or.inl h1)
      · exact List.mem_cons.mpr (Or.inr (List.mem_cons.mpr (Or.inr h1)))

theorem minByUsage_eq_of_ge (b : Fond) (l : List Fond)
    (h : ∀ a ∈ l, ¬ a.usageCount < b.usageCount) : minByUsage b l = b := by
  induction l with
  | nil => rfl
  | cons a t ih =>
    rw [minByUsage, if_neg (h a (List.mem_cons_self a t))]
    exact ih (fun x hx => h x (List.mem_cons_of_mem a hx))

theorem fondOrder_usage_le {a b : Fond} (h : fondOrder a b) :
    a.usageCount ≤ b.usageCount := by
  rcases h with h | ⟨h, -⟩
  · exact le_of_lt h
  · exact le_of_eq h

theorem selectFondForVideo_spec_core (now : ℕ) (theme : String) (st : List Fond)
    (sel : Fond) (st' : List Fond)
    (h : selectFondForVideo now theme st = some (sel, st')) :
    sel ∈ st ∧ sel.theme = theme ∧
    (∀ c ∈ st, c.theme = theme → sel.usageCount ≤ c.usageCount) ∧
    (∀ c ∈ st, c.theme = theme → c.usageCount = sel.usageCount →
      c.downloadDate ≤ sel.downloadDate) ∧
    List.Forall₂ (fun c c' => c.id = c'.id ∧ c.usageCount ≤ c'.usageCount ∧
      (c.id = sel.id → c'.usageCount = c.usageCount + 1 ∧ c'.lastUsed = some now) ∧
      (c.id ≠ sel.id → c' = c)) st st' ∧
    (∀ requests : List (ℕ × String),
      List.Forall₂ (fun c c' => c.id = c'.id ∧ c.usageCount ≤ c'.usageCount)
        st (runSelections st requests)) := by
  have hpoolsorted : List.Sorted fondOrder (getAvailableFonds theme st) :=
    List.sorted_insertionSort fondOrder _
  rw [selectFondForVideo] at h
  cases hpool : getAvailableFonds theme st with
  | nil =>
    rw [hpool] at h
    exact absurd h (by simp)
  | cons f rest =>
    rw [hpool] at h hpoolsorted
    simp only [Option.some.injEq, Prod.mk.injEq] at h
    obtain ⟨hsel, hst'⟩ := h
    obtain ⟨hfle, hrest_sorted⟩ := List.sorted_cons.mp hpoolsorted
    have hself : minByUsage f rest = f :=
      minByUsage_eq_of_ge f rest (fun a ha =>
        not_lt.mpr (fondOrder_usage_le (hfle a ha)))
    rw [hself] at hsel
    subst hsel
    rw [hself] at hst'
    have hmem_pool : ∀ c ∈ st, c.theme = theme → c ∈ f :: rest := by
      intro c hc hcth
      rw [← hpool]
      unfold getAvailableFonds
      rw [List.mem_insertionSort]
      exact List.mem_filter.mpr ⟨hc, by simp [hcth]⟩
    have hsel_mem : f ∈ st ∧ f.theme = theme := by
      have hmem : f ∈ getAvailableFonds theme st := by
        rw [hpool]
        exact List.mem_cons_self f rest
      unfold getAvailableFonds at hmem
      rw [List.mem_insertionSort] at hmem
      have hmem2 := List.mem_filter.mp hmem
      refine ⟨hmem2.1, by simpa using hmem2.2⟩
    refine ⟨hsel_mem.1, hsel_mem.2, ?_, ?_, ?_, ?_⟩
    · intro c hc hcth
      rcases List.mem_cons.mp (hmem_pool c hc hcth) with rfl | hcr
      · exact le_refl _
      · exact fondOrder_usage_le (hfle c hcr)
    · intro c hc hcth hceq
      rcases List.mem_cons.mp (hmem_pool c hc hcth) with rfl | hcr
      · exact le_refl _
      · rcases hfle c hcr with hlt | ⟨-, hd⟩
        · exact absurd hlt (by omega)
        · exact hd
    · rw [← hst']
      rw [List.forall₂_map_right_iff, List.forall₂_same]
      intro c _
      by_cases hid : c.id = f.id
      · rw [if_pos hid]
        exact ⟨rfl, by simp, fun _ => ⟨rfl, rfl⟩, fun hne => absurd hid hne⟩
      · rw [if_neg hid]
        exact ⟨rfl, le_refl _, fun hidd => absurd hidd hid, fun _ => rfl⟩
    · intro requests
      clear hst' hself hpool hmem_pool hsel_mem hfle hrest_sorted hpoolsorted
      induction requests generalizing st with
      | nil =>
        rw [runSelections]
        exact (List.forall₂_same).mpr (fun c _ => ⟨rfl, le_refl _⟩)
      | cons r rs ih =>
        rw [runSelections]
        have hstep : List.Forall₂ (fun c c' => c.id = c'.id ∧
            c.usageCount ≤ c'.usageCount) st (selectFondStep r.1 r.2 st) := by
          rw [selectFondStep]
          cases hsel2 : selectFondForVideo r.1 r.2 st with
          | none => exact (List.forall₂_same).mpr (fun c _ => ⟨rfl, le_refl _⟩)
          | some p =>
            rw [selectFondForVideo] at hsel2
            cases hpool2 : getAvailableFonds r.2 st with
            | nil =>
              rw [hpool2] at hsel2
              exact absurd hsel2 (by simp)
            | cons g grest =>
              rw [hpool2] at hsel2
              simp only [Option.some.injEq] at hsel2
              rw [← hsel2]
              rw [List.forall₂_map_right_iff, List.forall₂_same]
              intro c _
              by_cases hid : c.id = (minByUsage g grest).id
              · rw [if_pos hid]
                exact ⟨rfl, by simp⟩
              · rw [if_neg hid]
                exact ⟨rfl, le_refl _⟩
        have htail := ih (selectFondStep r.1 r.2 st)
        clear ih
        revert hstep htail
        generalize selectFondStep r.1 r.2 st = st1
        generalize runSelections st1 rs = st2
        intro hstep htail
        induction hstep generalizing st2 with
        | nil =>
          cases htail
          exact List.Forall₂.nil
        | cons hab hrest ih2 =>
          cases htail with
          | cons hbc hrest2 =>
            exact List.Forall₂.cons ⟨hab.1.trans hbc.1, hab.2.trans hbc.2⟩
              (ih2 _ hrest2)

/-- C5: a successful `select_fond_for_video` call picks a clip of the
requested theme whose `usage_count` is minimal among the theme's clips (no
clip is selected while a strictly-less-used same-theme clip exists), breaks
usage ties in favour of the most recently downloaded clip, increments
exactly the selected clip's `usage_count` by one and stamps its `last_used`,
leaves every other row unchanged, and — since no code path ever decrements a
counter — every row's `usage_count` is non-decreasing across any sequence of
further selections. -/
theorem selectFondForVideo_spec (now : ℕ) (theme : String) (st : List Fond)
    (sel : Fond) (st' : List Fond)
    (h : selectFondForVideo now theme st = some (sel, st')) :
    sel ∈ st ∧ sel.theme = theme ∧
    (∀ c ∈ st, c.theme = theme → sel.usageCount ≤ c.usageCount) ∧
    (∀ c ∈ st, c.theme = theme → c.usageCount = sel.usageCount →
      c.downloadDate ≤ sel.downloadDate) ∧
    List.Forall₂ (fun c c' => c.id = c'.id ∧ c.usageCount ≤ c'.usageCount ∧
      (c.id = sel.id → c'.usageCount = c.usageCount + 1 ∧ c'.lastUsed = some now) ∧
      (c.id ≠ sel.id → c' = c)) st st' ∧
    (∀ requests : List (ℕ × String),
      List.Forall₂ (fun c c' => c.id = c'.id ∧ c.usageCount ≤ c'.usageCount)
        st (runSelections st requests)) :=
  selectFondForVideo_spec_core now theme st sel st' h

theorem selectFondForVideo_spec_witness :
    (⟨1, "a.mp4", "motivation", 5, 0, none⟩ : Fond) ∈
        [(⟨1, "a.mp4", "motivation", 5, 0, none⟩ : Fond)] ∧
    (⟨1, "a.mp4", "motivation", 5, 0, none⟩ : Fond).theme = "motivation" ∧
    (∀ c ∈ [(⟨1, "a.mp4", "motivation", 5, 0, none⟩ : Fond)],
      c.theme = "motivation" →
      (⟨1, "a.mp4", "motivation", 5, 0, none⟩ : Fond).usageCount ≤ c.usageCount) ∧
    (∀ c ∈ [(⟨1, "a.mp4", "motivation", 5, 0, none⟩ : Fond)],
      c.theme = "motivation" →
      c.usageCount = (⟨1, "a.mp4", "motivation", 5, 0, none⟩ : Fond).usageCount →
      c.downloadDate ≤ (⟨1, "a.mp4", "motivation", 5, 0, none⟩ : Fond).downloadDate) ∧
    List.Forall₂ (fun c c' => c.id = c'.id ∧ c.usageCount ≤ c'.usageCount ∧
      (c.id = (⟨1, "a.mp4", "motivation", 5, 0, none⟩ : Fond).id →
        c'.usageCount = c.usageCount + 1 ∧ c'.lastUsed = some 10) ∧
      (c.id ≠ (⟨1, "a.mp4", "motivation", 5, 0, none⟩ : Fond).id → c' = c))
      [(⟨1, "a.mp4", "motivation", 5, 0, none⟩ : Fond)]
      [(⟨1, "a.mp4", "motivation", 5, 1, some 10⟩ : Fond)] ∧
    (∀ requests : List (ℕ × String),
      List.Forall₂ (fun c c' => c.id = c'.id ∧ c.usageCount ≤ c'.usageCount)
        [(⟨1, "a.mp4", "motivation", 5, 0, none⟩ : Fond)]
        (runSelections [(⟨1, "a.mp4", "motivation", 5, 0, none⟩ : Fond)] requests)) :=
  selectFondForVideo_spec 10 "motivation"
    [⟨1, "a.mp4", "motivation", 5, 0, none⟩]
    ⟨1, "a.mp4", "motivation", 5, 0, none⟩
    [⟨1, "a.mp4", "motivation", 5, 1, some 10⟩]
    (by decide)

theorem selectFondForVideo_of_empty_pool (now : ℕ) (theme : String)
    (st : List Fond) (h : st.filter (fun f => f.theme = theme) = []) :
    selectFondForVideo now theme st = none := by
  rw [selectFondForVideo]
  unfold getAvailableFonds
  rw [h]
  rfl

theorem selectFondForVideo_some_of_nonempty_pool (now : ℕ) (theme : String)
    (st : List Fond) (h : st.filter (fun f => f.theme = theme) ≠ []) :
    ∃ p, selectFondForVideo now theme st = some p := by
  rw [selectFondForVideo]
  cases hpool : getAvailableFonds theme st with
  | nil =>
    exfalso
    apply h
    have hperm := List.perm_insertionSort fondOrder
      (st.filter (fun f => f.theme = theme))
    rw [show (st.filter (fun f => f.theme = theme)).insertionSort fondOrder =
      getAvailableFonds theme st from rfl, hpool] at hperm
    exact List.eq_nil_of_length_eq_zero (hperm.symm.length_eq)
  | cons f rest => exact ⟨_, rfl⟩

/-- C6: when the clip pool for the requested theme is empty, the first
selection fails, so `_find_video_file` triggers an on-demand acquisition for
that theme and retries; when the acquisition also yields no clip of the
theme, it retries against the fixed default theme `motivation`; if the
motivation pool is non-empty a motivation clip is returned, and otherwise
the allocation returns no clip and the video is dropped from the build list
(the batch continues with the remaining videos against the acquired
state). -/
theorem findVideoFile_fallback_chain (now : ℕ) (acquire : String → List Fond)
    (t : String) (st : List Fond)
    (hempty : st.filter (fun f => f.theme = t) = [])
    (hacq : (acquire t).filter (fun f => f.theme = t) = []) :
    selectFondForVideo now t st = none ∧
    selectFondForVideo now t (st ++ acquire t) = none ∧
    ((st ++ acquire t).filter (fun f => f.theme = "motivation") ≠ [] →
      ∃ f st1, findVideoFile now acquire (some t) st = (some f, st1) ∧
        f.theme = "motivation") ∧
    ((st ++ acquire t).filter (fun f => f.theme = "motivation") = [] →
      findVideoFile now acquire (some t) st = (none, st ++ acquire t) ∧
      ∀ (v : String) (rest : List (String × Option String)),
        getVideosWithTts now acquire ((v, some t) :: rest) st =
          getVideosWithTts now acquire rest (st ++ acquire t)) := by
  have h1 : selectFondForVideo now t st = none :=
    selectFondForVideo_of_empty_pool now t st hempty
  have happ : (st ++ acquire t).filter (fun f => f.theme = t) = [] := by
    rw [List.filter_append, hempty, hacq]
    rfl
  have h2 : selectFondForVideo now t (st ++ acquire t) = none :=
    selectFondForVideo_of_empty_pool now t (st ++ acquire t) happ
  refine ⟨h1, h2, ?_, ?_⟩
  · intro hmot
    obtain ⟨⟨f, st1⟩, hsel⟩ :=
      selectFondForVideo_some_of_nonempty_pool now "motivation" (st ++ acquire t) hmot
    refine ⟨f, st1, ?_, ?_⟩
    · simp only [findVideoFile, h1, h2, hsel]
    · exact (selectFondForVideo_spec_core now "motivation" (st ++ acquire t) f st1
        hsel).2.1
  · intro hmot
    have h3 : selectFondForVideo now "motivation" (st ++ acquire t) = none :=
      selectFondForVideo_of_empty_pool now "motivation" (st ++ acquire t) hmot
    have hfv : findVideoFile now acquire (some t) st = (none, st ++ acquire t) := by
      simp only [findVideoFile, h1, h2, h3]
    refine ⟨hfv, ?_⟩
    intro v rest
    simp only [getVideosWithTts, hfv]

theorem findVideoFile_fallback_chain_witness :
    selectFondForVideo 3 "nature" ([] : List Fond) = none ∧
    selectFondForVideo 3 "nature" ([] ++ (fun _ => ([] : List Fond)) "nature") = none ∧
    ((([] : List Fond) ++ (fun _ => ([] : List Fond)) "nature").filter
        (fun f => f.theme = "motivation") ≠ [] →
      ∃ f st1, findVideoFile 3 (fun _ => ([] : List Fond)) (some "nature") [] =
          (some f, st1) ∧ f.theme = "motivation") ∧
    ((([] : List Fond) ++ (fun _ => ([] : List Fond)) "nature").filter
        (fun f => f.theme = "motivation") = [] →
      findVideoFile 3 (fun _ => ([] : List Fond)) (some "nature") [] =
        (none, [] ++ (fun _ => ([] : List Fond)) "nature") ∧
      ∀ (v : String) (rest : List (String × Option String)),
        getVideosWithTts 3 (fun _ => ([] : List Fond)) ((v, some "nature") :: rest) [] =
          getVideosWithTts 3 (fun _ => ([] : List Fond)) rest
            ([] ++ (fun _ => ([] : List Fond)) "nature")) :=
  findVideoFile_fallback_chain 3 (fun _ => []) "nature" [] (by decide) (by decide)

/-- C7: a video with no stored transcript row yields an empty moment list
from both `analyze_viral_potential` and `find_viral_moments` (no exception:
both are total functions returning `[]`), an empty transcript text likewise
yields `[]`, and the batch loop records nothing for such a video and simply
continues with the remaining videos. -/
theorem no_transcript_yields_empty_moments (v : String)
    (rest : List (String × Option (List Char))) :
    analyzeViralPotential none = [] ∧
    findViralMoments none = [] ∧
    analyzeViralPotential (some []) = [] ∧
    batchAnalyzeVideos ((v, none) :: rest) = batchAnalyzeVideos rest := by
  refine ⟨rfl, rfl, rfl, ?_⟩
  simp [batchAnalyzeVideos, List.filterMap_cons, analyzeViralPotential]

/-- The ranking order claimed for surfaced candidates: higher scores first,
ties by earliest start time. -/
def rankedBefore (a b : ViralSegment) : Prop :=
  b.viralScore ≤ a.viralScore ∧
    (a.viralScore = b.viralScore → a.startTime < b.startTime)

theorem orderedInsert_rankedBefore (x : ViralSegment) (l : List ViralSegment)
    (hl : l.Pairwise rankedBefore)
    (hx : ∀ b ∈ l, x.startTime < b.startTime) :
    (l.orderedInsert scoreDesc x).Pairwise rankedBefore := by
  induction l with
  | nil => simp [rankedBefore]
  | cons b t ih =>
    rw [List.orderedInsert]
    split_ifs with hr
    · refine List.Pairwise.cons ?_ hl
      intro y hy
      have hyscore : y.viralScore ≤ x.viralScore := by
        rcases List.mem_cons.mp hy with rfl | hyt
        · exact hr
        · exact le_trans ((List.pairwise_cons.mp hl).1 y hyt).1 hr
      exact ⟨hyscore, fun _ => hx y hy⟩
    · have hbx : x.viralScore < b.viralScore := not_le.mp hr
      obtain ⟨hbt, htp⟩ := List.pairwise_cons.mp hl
      refine List.Pairwise.cons ?_
        (ih htp (fun y hy => hx y (List.mem_cons_of_mem b hy)))
      intro y hy
      rw [List.mem_orderedInsert] at hy
      rcases hy with rfl | hyt
      · exact ⟨le_of_lt hbx, fun heq => False.elim (lt_irrefl _ (heq ▸ hbx))⟩
      · exact hbt y hyt

theorem insertionSort_rankedBefore (l : List ViralSegment)
    (hl : l.Pairwise (fun a b => a.startTime < b.startTime)) :
    (l.insertionSort scoreDesc).Pairwise rankedBefore := by
  induction l with
  | nil => simp
  | cons x t ih =>
    rw [List.insertionSort]
    obtain ⟨hxt, htp⟩ := List.pairwise_cons.mp hl
    exact orderedInsert_rankedBefore x _ (ih htp)
      (fun b hb => hxt b ((List.mem_insertionSort scoreDesc).mp hb))

theorem viralCandidates_start_le (segs : List (List Char)) (i : ℕ) :
    ∀ b ∈ viralCandidates segs i, ((i : ℚ)) * 30 ≤ b.startTime := by
  induction segs generalizing i with
  | nil => simp [viralCandidates]
  | cons s rest ih =>
    intro b hb
    rw [viralCandidates] at hb
    split_ifs at hb with hsc
    · rcases List.mem_cons.mp hb with rfl | hbr
      · exact le_refl _
      · have hnext := ih (i + 1) b hbr
        push_cast at hnext ⊢
        linarith
    · have hnext := ih (i + 1) b hb
      push_cast at hnext ⊢
      linarith

theorem viralCandidates_pairwise_start (segs : List (List Char)) (i : ℕ) :
    (viralCandidates segs i).Pairwise (fun a b => a.startTime < b.startTime) := by
  induction segs generalizing i with
  | nil => simp [viralCandidates]
  | cons s rest ih =>
    rw [viralCandidates]
    split_ifs with hsc
    · refine List.Pairwise.cons ?_ (ih (i + 1))
      intro b hb
      have hnext := viralCandidates_start_le rest (i + 1) b hb
      dsimp only
      push_cast at hnext ⊢
      linarith
    · exact ih (i + 1)

/-- C9: for every transcript text, the candidate list surfaced by
`_ai_analysis` is sorted descending by viral score with ties in order of
earliest `start_time` (Python's stable sort over candidates whose start
times strictly increase), and at most 5 candidates are returned; the
top-moments accessor further truncates the analysis result to its first 3
entries. -/
theorem ai_analysis_ranking (text : List Char) :
    (aiAnalysis text).length ≤ 5 ∧
    (aiAnalysis text).Pairwise rankedBefore ∧
    getTopViralMoments (some text) = (analyzeViralPotential (some text)).take 3 ∧
    (getTopViralMoments (some text)).length ≤ 3 := by
  refine ⟨?_, ?_, rfl, ?_⟩
  · unfold aiAnalysis
    exact List.length_take_le 5 _
  · unfold aiAnalysis
    exact List.Pairwise.sublist (List.take_sublist 5 _)
      (insertionSort_rankedBefore _ (viralCandidates_pairwise_start _ 0))
  · unfold getTopViralMoments
    exact List.length_take_le 3 _

theorem pySplitAux_words_ok (t : List Char) (acc : List Char)
    (hacc : ∀ c ∈ acc, pyIsSpace c = false) :
    ∀ w ∈ pySplitAux t acc, w ≠ [] ∧ ∀ c ∈ w, pyIsSpace c = false := by
  induction t generalizing acc with
  | nil =>
    intro w hw
    rw [pySplitAux] at hw
    split_ifs at hw with he
    · simp at hw
    · simp only [List.mem_singleton] at hw
      subst hw
      refine ⟨fun h0 => he (by simp [List.isEmpty_iff, ← List.reverse_eq_nil_iff.mp h0]), ?_⟩
      intro c hc
      exact hacc c (List.mem_reverse.mp hc)
  | cons c cs ih =>
    intro w hw
    rw [pySplitAux] at hw
    by_cases hsp : pyIsSpace c
    · rw [if_pos hsp] at hw
      split_ifs at hw with he
      · exact ih [] (by simp) w hw
      · rcases List.mem_cons.mp hw with rfl | hw'
        · refine ⟨fun h0 => he (by simp [List.isEmpty_iff, ← List.reverse_eq_nil_iff.mp h0]), ?_⟩
          intro d hd
          exact hacc d (List.mem_reverse.mp hd)
        · exact ih [] (by simp) w hw'
    · rw [if_neg hsp] at hw
      refine ih (c :: acc) ?_ w hw
      intro d hd
      rcases List.mem_cons.mp hd with rfl | hd'
      · exact Bool.not_eq_true _ ▸ (by simpa using hsp)
      · exact hacc d hd'

theorem pySplitAux_word_prefix (w : List Char) (cs : List Char) (acc : List Char)
    (hw : ∀ c ∈ w, pyIsSpace c = false) :
    pySplitAux (w ++ cs) acc = pySplitAux cs (w.reverse ++ acc) := by
  induction w generalizing acc with
  | nil => simp
  | cons c w' ih =>
    rw [List.cons_append, pySplitAux,
      if_neg (by simp [hw c (List.mem_cons_self c w')])]
    rw [ih (c :: acc) (fun d hd => hw d (List.mem_cons_of_mem c hd))]
    simp

theorem intercalate_space_cons_cons (a b : List Char) (l : List (List Char)) :
    List.intercalate [' '] (a :: b :: l) = a ++ ' ' :: List.intercalate [' '] (b :: l) := by
  simp [List.intercalate, List.intersperse_cons_cons]

theorem pySplit_intercalate (ws : List (List Char))
    (hws : ∀ w ∈ ws, w ≠ [] ∧ ∀ c ∈ w, pyIsSpace c = false) :
    pySplit (List.intercalate [' '] ws) = ws := by
  induction ws with
  | nil => rfl
  | cons w ws' ih =>
    have hw := hws w (List.mem_cons_self w ws')
    cases ws' with
    | nil =>
      unfold pySplit
      have h1 : List.intercalate [' '] [w] = w := by simp [List.intercalate]
      rw [h1]
      have h2 := pySplitAux_word_prefix w [] [] hw.2
      rw [List.append_nil] at h2
      rw [h2, List.append_nil, pySplitAux,
        if_neg (by simp [List.isEmpty_iff, List.reverse_eq_nil_iff, hw.1])]
      simp
    | cons w2 ws'' =>
      unfold pySplit
      rw [intercalate_space_cons_cons]
      have h2 := pySplitAux_word_prefix w (' ' :: List.intercalate [' '] (w2 :: ws'')) [] hw.2
      rw [List.append_nil] at h2
      rw [h2, pySplitAux, if_pos (by simp [pyIsSpace]),
        if_neg (by simp [List.isEmpty_iff, List.reverse_eq_nil_iff, hw.1])]
      rw [List.reverse_reverse]
      have ih2 := ih (fun x hx => hws x (List.mem_cons_of_mem w hx))
      unfold pySplit at ih2
      rw [ih2]

theorem splitTextLoop_flatten (maxD : ℚ) (ws : List (List Char))
    (cur : List (List Char)) (len : ℚ) :
    (splitTextLoop maxD ws cur len).flatten = cur ++ ws := by
  induction ws generalizing cur len with
  | nil =>
    rw [splitTextLoop]
    split_ifs with he
    · simp [List.isEmpty_iff.mp he]
    · simp
  | cons w ws' ih =>
    rw [splitTextLoop]
    split_ifs with hd
    · simp [ih]
    · simp [ih]

theorem splitTextLoop_chunks_ne_nil (maxD : ℚ) (ws : List (List Char))
    (cur : List (List Char)) (len : ℚ) :
    ∀ ch ∈ splitTextLoop maxD ws cur len, ch ≠ [] := by
  induction ws generalizing cur len with
  | nil =>
    intro ch hch
    rw [splitTextLoop] at hch
    split_ifs at hch with he
    · simp at hch
    · simp only [List.mem_singleton] at hch
      subst hch
      exact fun h0 => he (List.isEmpty_iff.mpr h0)
  | cons w ws' ih =>
    intro ch hch
    rw [splitTextLoop] at hch
    split_ifs at hch with hd
    · rcases List.mem_cons.mp hch with rfl | hch'
      · simp
      · exact ih [] 0 ch hch'
    · exact ih (cur ++ [w]) (len + (w.length + 1)) ch hch

theorem splitTextLoop_ne_nil (maxD : ℚ) (ws : List (List Char))
    (cur : List (List Char)) (len : ℚ) (h : ws ≠ [] ∨ cur ≠ []) :
    splitTextLoop maxD ws cur len ≠ [] := by
  induction ws generalizing cur len with
  | nil =>
    rcases h with h | h
    · exact absurd rfl h
    · rw [splitTextLoop, if_neg (fun he => h (List.isEmpty_iff.mp he))]
      simp
  | cons w ws' ih =>
    rw [splitTextLoop]
    split_ifs with hd
    · simp
    · exact ih (cur ++ [w]) (len + (w.length + 1)) (Or.inr (by simp))

theorem intercalate_space_append (xs ys : List (List Char)) (hxs : xs ≠ [])
    (hys : ys ≠ []) :
    List.intercalate [' '] (xs ++ ys) =
      List.intercalate [' '] xs ++ ' ' :: List.intercalate [' '] ys := by
  induction xs with
  | nil => exact absurd rfl hxs
  | cons x xs' ih =>
    cases xs' with
    | nil =>
      cases ys with
      | nil => exact absurd rfl hys
      | cons y ys' =>
        rw [List.singleton_append, intercalate_space_cons_cons]
        simp [List.intercalate]
    | cons x2 xs'' =>
      rw [List.cons_append, List.cons_append,
        intercalate_space_cons_cons x x2 (xs'' ++ ys),
        show x2 :: (xs'' ++ ys) = (x2 :: xs'') ++ ys from rfl,
        ih (by simp), intercalate_space_cons_cons]
      simp

theorem intercalate_map_flatten (chunks : List (List (List Char)))
    (h : ∀ ch ∈ chunks, ch ≠ []) :
    List.intercalate [' '] (chunks.map (List.intercalate [' '])) =
      List.intercalate [' '] chunks.flatten := by
  induction chunks with
  | nil => rfl
  | cons ch rest ih =>
    cases rest with
    | nil => simp [List.intercalate]
    | cons ch2 rest' =>
      have hch : ch ≠ [] := h ch (List.mem_cons_self ch (ch2 :: rest'))
      have hch2 : ch2 ≠ [] := h ch2 (by simp)
      have hflat : (ch2 :: rest').flatten ≠ [] := by
        rw [List.flatten_cons]
        intro h0
        exact hch2 (List.append_eq_nil.mp h0).1
      have hmapne : (ch2 :: rest').map (List.intercalate [' ']) ≠ [] := by simp
      have ih' := ih (fun x hx => h x (List.mem_cons_of_mem ch hx))
      calc List.intercalate [' '] ((ch :: ch2 :: rest').map (List.intercalate [' ']))
          = List.intercalate [' '] ([List.intercalate [' '] ch] ++
              (ch2 :: rest').map (List.intercalate [' '])) := by simp
        _ = List.intercalate [' '] [List.intercalate [' '] ch] ++ ' ' ::
              List.intercalate [' '] ((ch2 :: rest').map (List.intercalate [' '])) :=
            intercalate_space_append _ _ (by simp) hmapne
        _ = List.intercalate [' '] ((ch :: ch2 :: rest').flatten) := by
            rw [ih', show List.intercalate [' '] [List.intercalate [' '] ch] =
                List.intercalate [' '] ch from by simp [List.intercalate],
              show (ch :: ch2 :: rest').flatten = ch ++ (ch2 :: rest').flatten from rfl,
              intercalate_space_append ch _ hch hflat]

/-- C10: `_split_text_into_segments` partitions the text's words —
re-splitting the space-joined concatenation of the returned segments gives
exactly the original whitespace-separated word sequence, with no word lost,
duplicated or reordered — and the returned segment list is empty exactly
when the text contains no words.  (Stated for every `max_duration`, in
particular the 90 used by both call sites.) -/
theorem splitTextIntoSegments_partitions_words (maxD : ℚ) (text : List Char) :
    pySplit (pyJoinSpace (splitTextIntoSegments maxD text)) = pySplit text ∧
    (splitTextIntoSegments maxD text = [] ↔ pySplit text = []) := by
  constructor
  · unfold splitTextIntoSegments pyJoinSpace
    rw [intercalate_map_flatten _ (splitTextLoop_chunks_ne_nil maxD (pySplit text) [] 0),
      splitTextLoop_flatten, List.nil_append]
    exact pySplit_intercalate _ (pySplitAux_words_ok text [] (by simp))
  · constructor
    · intro h
      by_contra hw
      exact splitTextLoop_ne_nil maxD (pySplit text) [] 0 (Or.inl hw)
        (List.map_eq_nil_iff.mp h)
    · intro h
      unfold splitTextIntoSegments
      rw [h]
      rfl
